import Mathlib

/-!
Verification development for the queue implementation in `queue.c`
(lab0-c): a queue of heap-allocated C strings stored in a circular,
doubly-linked, sentinel-anchored intrusive list.

The embedding is shallow:

* an element (`element_t`) is modelled by its string value — a list of
  bytes, terminator excluded — plus a node identity `id` standing for the
  heap address of the node (the code never inspects it; it lets us state
  identity/stability properties);
* a possibly-NULL queue handle is `Option (List element_t)`, the list
  being the forward (`next`-pointer) traversal order from the sentinel;
* `strcmp`, `mergeTwoLists`, `mergesort`, the fast/slow split, the
  duplicate-deletion walk, the middle-deletion cursor, insertion and
  removal are each translated function-by-function from `queue.c`;
* the re-threading phase of `q_sort`, whose behaviour depends on raw
  `next`/`prev` pointers, is additionally modelled on an explicit heap
  (`Nat → Nat` pointer maps, `0` playing the role of `NULL`).
-/

namespace LabQueue

/-- An `element_t` of `queue.c`: owns one C string (`value`, the bytes of
the string, NUL terminator excluded) and is embedded in the list via its
node; `id` stands for the node's address and identifies it. -/
structure element_t where
  value : List Nat
  id : Nat
deriving DecidableEq

/-- C `strcmp` on NUL-terminated byte strings: returns the difference of
the first differing byte pair (the terminating NUL counting as byte 0),
`0` when the strings are equal. -/
def strcmp : List Nat → List Nat → Int
  | [], [] => 0
  | [], b :: _ => -(b : Int)
  | a :: _, [] => (a : Int)
  | a :: as, b :: bs => if a = b then strcmp as bs else (a : Int) - (b : Int)

/-- Exchanging the arguments of `strcmp` negates the result. -/
theorem strcmp_neg : (a b : List Nat) → strcmp a b = -strcmp b a
  | [], [] => by simp [strcmp]
  | [], _ :: _ => by simp [strcmp]
  | _ :: _, [] => by simp [strcmp]
  | a :: as, b :: bs => by
    by_cases h : a = b
    · subst h
      simp [strcmp, strcmp_neg as bs]
    · have h2 : ¬b = a := fun e => h e.symm
      simp only [strcmp, if_neg h, if_neg h2]
      omega

/-- The ordering `mergeTwoLists` produces: `e` precedes `f` when
`strcmp(e->value, f->value) <= 0`. -/
def valLe (e f : element_t) : Prop := strcmp e.value f.value ≤ 0

instance (e f : element_t) : Decidable (valLe e f) := by
  unfold valLe; infer_instance

/-- `mergeTwoLists` of `queue.c`: merges two sorted NULL-terminated
singly-linked chains; while both are non-empty the head with
`strcmp < 0` is appended (so on a tie, `strcmp == 0`, the head of the
SECOND chain is taken), and when one chain runs out the other is
appended wholesale (`*ptr = l1 | l2`). -/
def mergeTwoLists : List element_t → List element_t → List element_t
  | [], l2 => l2
  | l1, [] => l1
  | e1 :: l1, e2 :: l2 =>
    if strcmp e1.value e2.value < 0 then e1 :: mergeTwoLists l1 (e2 :: l2)
    else e2 :: mergeTwoLists (e1 :: l1) l2
termination_by l1 l2 => l1.length + l2.length

theorem mergeTwoLists_nil_left (l2 : List element_t) : mergeTwoLists [] l2 = l2 := by
  simp [mergeTwoLists]

theorem mergeTwoLists_nil_right (l1 : List element_t) : mergeTwoLists l1 [] = l1 := by
  cases l1 <;> simp [mergeTwoLists]

theorem mergeTwoLists_cons_cons (e1 e2 : element_t) (l1 l2 : List element_t) :
    mergeTwoLists (e1 :: l1) (e2 :: l2) =
      if strcmp e1.value e2.value < 0 then e1 :: mergeTwoLists l1 (e2 :: l2)
      else e2 :: mergeTwoLists (e1 :: l1) l2 := by
  simp [mergeTwoLists]

/-- The merged chain is a permutation of the two input chains laid end to
end. -/
theorem mergeTwoLists_perm (l1 : List element_t) :
    ∀ l2, List.Perm (mergeTwoLists l1 l2) (l1 ++ l2) := by
  induction l1 with
  | nil => intro l2; simp [mergeTwoLists_nil_left]
  | cons e1 t1 ih1 =>
    intro l2
    induction l2 with
    | nil => simp [mergeTwoLists_nil_right]
    | cons e2 t2 ih2 =>
      rw [mergeTwoLists_cons_cons]
      split
      · exact List.Perm.cons e1 (ih1 (e2 :: t2))
      · refine List.Perm.trans (List.Perm.cons e2 ih2) ?_
        exact List.perm_middle.symm

/-- Merging consumes every node of both chains, one per loop iteration. -/
theorem mergeTwoLists_length (l1 : List element_t) :
    ∀ l2, (mergeTwoLists l1 l2).length = l1.length + l2.length :=
  fun l2 => (mergeTwoLists_perm l1 l2).length_eq.trans (List.length_append l1 l2)

/-- The head of the merged chain is the head of one of the two inputs. -/
theorem mergeTwoLists_headq : ∀ l1 l2 : List element_t,
    (mergeTwoLists l1 l2).head? = l1.head? ∨ (mergeTwoLists l1 l2).head? = l2.head? := by
  intro l1 l2
  match l1, l2 with
  | [], l2 => exact Or.inr (by rw [mergeTwoLists_nil_left])
  | e :: l1, [] => exact Or.inl (by rw [mergeTwoLists_nil_right])
  | e1 :: l1, e2 :: l2 =>
    rw [mergeTwoLists_cons_cons]
    split
    · exact Or.inl (by simp)
    · exact Or.inr (by simp)

/-- Merging two chains that are ascending (each element `≤` its
successor under `strcmp`) yields an ascending chain. -/
theorem mergeTwoLists_chain (l1 : List element_t) :
    ∀ l2, List.Chain' valLe l1 → List.Chain' valLe l2 →
      List.Chain' valLe (mergeTwoLists l1 l2) := by
  induction l1 with
  | nil => intro l2 _ h2; rw [mergeTwoLists_nil_left]; exact h2
  | cons e1 t1 ih1 =>
    intro l2
    induction l2 with
    | nil => intro h1 _; rw [mergeTwoLists_nil_right]; exact h1
    | cons e2 t2 ih2 =>
      intro h1 h2
      rw [mergeTwoLists_cons_cons]
      split
      · rename_i hlt
        rw [List.chain'_cons']
        refine ⟨?_, ih1 (e2 :: t2) h1.tail h2⟩
        intro y hy
        rcases mergeTwoLists_headq t1 (e2 :: t2) with hh | hh
        · rw [hh] at hy
          exact (List.chain'_cons'.mp h1).1 y hy
        · rw [hh] at hy
          simp only [List.head?_cons, Option.mem_def, Option.some.injEq] at hy
          subst hy
          exact le_of_lt hlt
      · rename_i hge
        rw [List.chain'_cons']
        refine ⟨?_, ih2 h1 h2.tail⟩
        intro y hy
        rcases mergeTwoLists_headq (e1 :: t1) t2 with hh | hh
        · rw [hh] at hy
          simp only [List.head?_cons, Option.mem_def, Option.some.injEq] at hy
          subst hy
          show strcmp e2.value e1.value ≤ 0
          rw [strcmp_neg]
          omega
        · rw [hh] at hy
          exact (List.chain'_cons'.mp h2).1 y hy

/-- The fast/slow split of `mergesort` in `queue.c`. `s` is the chain
from the `slow` cursor (initially the whole chain) and `f` the chain from
the `fast` cursor (initially the chain's tail); while `fast && fast->next`
both advance (`slow` one node, `fast` two) and the final split severs the
link after `slow`: the first component is the prefix up to and including
`slow`, the second the remainder. -/
def mergesortSplit : List element_t → List element_t → List element_t × List element_t
  | [], _ => ([], [])
  | s1 :: sr, _ :: _ :: fr =>
    ((s1 :: (mergesortSplit sr fr).1), (mergesortSplit sr fr).2)
  | s1 :: sr, _ => ([s1], sr)

/-- The two halves of the split concatenate back to the input chain. -/
theorem mergesortSplit_append : (s f : List element_t) →
    (mergesortSplit s f).1 ++ (mergesortSplit s f).2 = s
  | [], _ => rfl
  | s1 :: sr, f1 :: f2 :: fr => by
    simp [mergesortSplit, mergesortSplit_append sr fr]
  | _ :: _, [] => by simp [mergesortSplit]
  | _ :: _, [_] => by simp [mergesortSplit]

/-- The first half of the split has at most `f.length / 2 + 1` nodes. -/
theorem mergesortSplit_fst_le : (s f : List element_t) →
    (mergesortSplit s f).1.length ≤ f.length / 2 + 1
  | [], _ => by simp [mergesortSplit]
  | s1 :: sr, f1 :: f2 :: fr => by
    have ih := mergesortSplit_fst_le sr fr
    simp only [mergesortSplit, List.length_cons]
    omega
  | _ :: _, [] => by simp [mergesortSplit]
  | _ :: _, [_] => by simp [mergesortSplit]

/-- The first half of the split of a non-empty chain is non-empty. -/
theorem mergesortSplit_fst_pos : (s f : List element_t) → s ≠ [] →
    0 < (mergesortSplit s f).1.length
  | [], _, h => absurd rfl h
  | s1 :: sr, _ :: _ :: fr, _ => by simp [mergesortSplit]
  | _ :: _, [], _ => by simp [mergesortSplit]
  | _ :: _, [_], _ => by simp [mergesortSplit]

/-- `mergesort` of `queue.c`: recursive merge sort over a NULL-terminated
singly-linked chain. A chain that is NULL or a single node is returned
unchanged; otherwise the chain is halved by the fast/slow split, both
halves are sorted recursively and merged. -/
def mergesort (l : List element_t) : List element_t :=
  match l with
  | [] => []
  | [x] => [x]
  | x :: y :: rest =>
    mergeTwoLists (mergesort (mergesortSplit (x :: y :: rest) (y :: rest)).1)
      (mergesort (mergesortSplit (x :: y :: rest) (y :: rest)).2)
termination_by l.length
decreasing_by
  · have h1 := mergesortSplit_fst_le (x :: y :: rest) (y :: rest)
    simp only [List.length_cons] at h1 ⊢
    omega
  · have hap := mergesortSplit_append (x :: y :: rest) (y :: rest)
    have hpos := mergesortSplit_fst_pos (x :: y :: rest) (y :: rest) (by simp)
    have hlen : (mergesortSplit (x :: y :: rest) (y :: rest)).1.length +
        (mergesortSplit (x :: y :: rest) (y :: rest)).2.length =
        (x :: y :: rest).length := by
      rw [← List.length_append, hap]
    simp only [List.length_cons] at hlen ⊢
    omega

theorem mergesort_nil : mergesort [] = [] := by simp [mergesort]

theorem mergesort_single (x : element_t) : mergesort [x] = [x] := by simp [mergesort]

theorem mergesort_cons_cons (x y : element_t) (rest : List element_t) :
    mergesort (x :: y :: rest) =
      mergeTwoLists (mergesort (mergesortSplit (x :: y :: rest) (y :: rest)).1)
        (mergesort (mergesortSplit (x :: y :: rest) (y :: rest)).2) := by
  rw [mergesort]

/-- Auxiliary strong induction on length: `mergesort` permutes its input. -/
theorem mergesort_perm_aux : (n : Nat) → ∀ l : List element_t, l.length ≤ n →
    List.Perm (mergesort l) l := by
  intro n
  induction n with
  | zero =>
    intro l h
    have : l = [] := List.eq_nil_of_length_eq_zero (Nat.le_zero.mp h)
    subst this
    simp [mergesort_nil]
  | succ n ih =>
    intro l h
    match l with
    | [] => simp [mergesort_nil]
    | [x] => simp [mergesort_single]
    | x :: y :: rest =>
      rw [mergesort_cons_cons]
      have hap := mergesortSplit_append (x :: y :: rest) (y :: rest)
      have hpos := mergesortSplit_fst_pos (x :: y :: rest) (y :: rest) (by simp)
      have hle := mergesortSplit_fst_le (x :: y :: rest) (y :: rest)
      have hlen : (mergesortSplit (x :: y :: rest) (y :: rest)).1.length +
          (mergesortSplit (x :: y :: rest) (y :: rest)).2.length =
          (x :: y :: rest).length := by
        rw [← List.length_append, hap]
      have p1 := ih (mergesortSplit (x :: y :: rest) (y :: rest)).1
        (by simp only [List.length_cons] at h hlen hle ⊢; omega)
      have p2 := ih (mergesortSplit (x :: y :: rest) (y :: rest)).2
        (by simp only [List.length_cons] at h hlen hle ⊢; omega)
      have hfin : List.Perm ((mergesortSplit (x :: y :: rest) (y :: rest)).1 ++
          (mergesortSplit (x :: y :: rest) (y :: rest)).2) (x :: y :: rest) := by
        rw [hap]
      exact ((mergeTwoLists_perm _ _).trans (List.Perm.append p1 p2)).trans hfin

/-- `mergesort` returns a permutation of its input chain. -/
theorem mergesort_perm (l : List element_t) : List.Perm (mergesort l) l :=
  mergesort_perm_aux l.length l le_rfl

/-- Auxiliary strong induction on length: `mergesort` sorts. -/
theorem mergesort_chain_aux : (n : Nat) → ∀ l : List element_t, l.length ≤ n →
    List.Chain' valLe (mergesort l) := by
  intro n
  induction n with
  | zero =>
    intro l h
    have : l = [] := List.eq_nil_of_length_eq_zero (Nat.le_zero.mp h)
    subst this
    simp [mergesort_nil]
  | succ n ih =>
    intro l h
    match l with
    | [] => simp [mergesort_nil]
    | [x] => simp [mergesort_single]
    | x :: y :: rest =>
      rw [mergesort_cons_cons]
      have hap := mergesortSplit_append (x :: y :: rest) (y :: rest)
      have hpos := mergesortSplit_fst_pos (x :: y :: rest) (y :: rest) (by simp)
      have hle := mergesortSplit_fst_le (x :: y :: rest) (y :: rest)
      have hlen : (mergesortSplit (x :: y :: rest) (y :: rest)).1.length +
          (mergesortSplit (x :: y :: rest) (y :: rest)).2.length =
          (x :: y :: rest).length := by
        rw [← List.length_append, hap]
      have c1 := ih (mergesortSplit (x :: y :: rest) (y :: rest)).1
        (by simp only [List.length_cons] at h hlen hle ⊢; omega)
      have c2 := ih (mergesortSplit (x :: y :: rest) (y :: rest)).2
        (by simp only [List.length_cons] at h hlen hle ⊢; omega)
      exact mergeTwoLists_chain _ _ c1 c2

/-- The chain produced by `mergesort` is ascending: each element is
`valLe` its successor. -/
theorem mergesort_chain (l : List element_t) : List.Chain' valLe (mergesort l) :=
  mergesort_chain_aux l.length l le_rfl

/-- Effect of `q_sort` on the forward (`next`-order) element sequence of
the queue: the guard returns unchanged on an empty or singular queue, and
otherwise the detached chain (the forward sequence) is replaced by its
`mergesort`. -/
def q_sortList (l : List element_t) : List element_t :=
  if l.length ≤ 1 then l else mergesort l

/-- `q_sort` over a possibly-NULL handle: a NULL queue is untouched. -/
def q_sortO : Option (List element_t) → Option (List element_t)
  | none => none
  | some l => some (q_sortList l)

/-- The walk of `q_delete_dup` in `queue.c` over the elements in forward
order, via the safe iterator (`safe` is the successor fetched before the
body runs). The walk breaks before comparing the last element against the
sentinel (`e->list.next == head`); otherwise the current element `e` is
deleted exactly when `strcmp(e->value, safe->value) == 0`, and the walk
always advances to `safe`. -/
def dedupWalk : List element_t → List element_t
  | [] => []
  | [e] => [e]
  | e :: f :: rest =>
    if strcmp e.value f.value = 0 then dedupWalk (f :: rest)
    else e :: dedupWalk (f :: rest)

/-- `q_delete_dup` of `queue.c`: returns `false` and does nothing on a
NULL handle, otherwise runs the deletion walk and returns `true`. -/
def q_delete_dup : Option (List element_t) → Bool × Option (List element_t)
  | none => (false, none)
  | some l => (true, some (dedupWalk l))

/-- The index addressed by the `idir` cursor of `q_delete_mid`: the
number of iterations of the fast-cursor loop, which runs while
`fast != head && fast->next != head`, `fast` advancing two nodes per
iteration over the element chain. -/
def midIdx : List element_t → Nat
  | [] => 0
  | [_] => 0
  | _ :: _ :: rest => midIdx rest + 1

/-- The fast/slow cursor of `q_delete_mid` stops at index `⌊n / 2⌋`. -/
theorem midIdx_eq : (l : List element_t) → midIdx l = l.length / 2
  | [] => by simp [midIdx]
  | [_] => by simp [midIdx]
  | _ :: _ :: rest => by
    have ih := midIdx_eq rest
    simp only [midIdx, List.length_cons, ih]
    omega

/-- `q_delete_mid` of `queue.c`: returns `false` (the C code returns
`NULL`, which converts to `false`) leaving the queue untouched when the
handle is NULL or the queue empty; otherwise unlinks and releases the
node the `idir` cursor addresses and returns `true`. -/
def q_delete_mid : Option (List element_t) → Bool × Option (List element_t)
  | none => (false, none)
  | some [] => (false, some [])
  | some (e :: rest) =>
    (true, some ((e :: rest).eraseIdx (midIdx (e :: rest))))

/-- `q_insert_head` of `queue.c`. Allocation outcomes are inputs:
`mOk` is whether `malloc` of the node succeeds and `dOk` whether `strdup`
of the value succeeds; `nid` is the address of the new node. The result
records the returned boolean, the queue afterwards, whether a node was
allocated, and whether that node was freed before returning. -/
def q_insert_head : Option (List element_t) → List Nat → Bool → Bool → Nat →
    Bool × Option (List element_t) × Bool × Bool
  | none, _, _, _, _ => (false, none, false, false)
  | some l, s, mOk, dOk, nid =>
    if mOk then
      if dOk then (true, some (⟨s, nid⟩ :: l), true, false)
      else (false, some l, true, true)
    else (false, some l, false, false)

/-- `q_insert_tail` of `queue.c`: identical to `q_insert_head` except the
new element is linked at the back (`list_add_tail`). -/
def q_insert_tail : Option (List element_t) → List Nat → Bool → Bool → Nat →
    Bool × Option (List element_t) × Bool × Bool
  | none, _, _, _, _ => (false, none, false, false)
  | some l, s, mOk, dOk, nid =>
    if mOk then
      if dOk then (true, some (l ++ [⟨s, nid⟩]), true, false)
      else (false, some l, true, true)
    else (false, some l, false, false)

/-- The byte stores `q_remove_head`/`q_remove_tail` perform into the
caller's buffer `sp` when `sp` is non-NULL, as `(offset, byte)` pairs:
`strncpy(sp, e->value, bufsize)` writes exactly `bufsize` bytes (value
bytes, zero-padded past the value's end) at offsets `0 .. bufsize - 1`,
then `sp[bufsize - 1] = 0` stores at offset `bufsize - 1` computed in
`size_t` arithmetic, i.e. `(bufsize + 2 ^ 64 - 1) % 2 ^ 64`. -/
def spWrites (v : List Nat) (bufsize : Nat) : List (Nat × Nat) :=
  (List.range bufsize).map (fun i => (i, v.getD i 0)) ++
    [((bufsize + (2 ^ 64 - 1)) % 2 ^ 64, 0)]

/-- `q_remove_head` of `queue.c`. `spNN` is whether the caller's buffer
pointer `sp` is non-NULL. The result is the returned element (NULL on a
NULL or empty queue), the queue afterwards, and the list of byte stores
performed into the buffer. -/
def q_remove_head : Option (List element_t) → Bool → Nat →
    Option element_t × Option (List element_t) × List (Nat × Nat)
  | none, _, _ => (none, none, [])
  | some [], _, _ => (none, some [], [])
  | some (e :: rest), spNN, bufsize =>
    (some e, some rest, if spNN then spWrites e.value bufsize else [])

/-- `q_remove_tail` of `queue.c`: as `q_remove_head`, but the element
unlinked is the last one (`list_last_entry`, `list_del(head->prev)`). -/
def q_remove_tail : Option (List element_t) → Bool → Nat →
    Option element_t × Option (List element_t) × List (Nat × Nat)
  | none, _, _ => (none, none, [])
  | some [], _, _ => (none, some [], [])
  | some (e :: rest), spNN, bufsize =>
    (some ((e :: rest).getLast (List.cons_ne_nil e rest)),
      some ((e :: rest).dropLast),
      if spNN then spWrites ((e :: rest).getLast (List.cons_ne_nil e rest)).value bufsize
      else [])

/-- The traversal of `q_reverse`: each node, in original forward order
(pre-fetched by the safe iterator), is moved to the front of the queue;
`acc` is the already-moved front of the queue, in reverse order of
processing. -/
def reverseWalk : List element_t → List element_t → List element_t
  | [], acc => acc
  | e :: rest, acc => reverseWalk rest (e :: acc)

/-- `q_reverse` of `queue.c`: no effect on a NULL (or empty) queue;
otherwise every node is re-linked to the front in traversal order. -/
def q_reverse : Option (List element_t) → Option (List element_t)
  | none => none
  | some l => some (reverseWalk l [])

/-- The front-insertion walk computes the reversal. -/
theorem reverseWalk_eq : (l acc : List element_t) →
    reverseWalk l acc = l.reverse ++ acc
  | [], _ => by simp [reverseWalk]
  | e :: rest, acc => by
    simp [reverseWalk, reverseWalk_eq rest (e :: acc)]

/-- Pointer-map update: `upd f k v` is the map `f` with address `k` now
holding `v`. Addresses are `Nat`, with `0` playing the role of `NULL`. -/
def upd (f : Nat → Nat) (k v : Nat) : Nat → Nat :=
  fun x => if x = k then v else f x

/-- The fast/slow loop of `mergesort` on the heap: starting from cursors
`s` (slow) and `f` (fast), while `fast && fast->next` the slow cursor
advances one link and the fast cursor two; returns the final slow
cursor. `fuel` bounds the iteration count (ample at concrete inputs). -/
def slowFastH (next : Nat → Nat) : Nat → Nat → Nat → Nat
  | 0, s, _ => s
  | fuel + 1, s, f =>
    if f ≠ 0 ∧ next f ≠ 0 then slowFastH next fuel (next s) (next (next f))
    else s

/-- `mergeTwoLists` of `queue.c` on the heap: `next` is the
singly-linked `next`-pointer map, `l1`/`l2` the two chain heads; the
result is the updated `next` map and the merged chain's head. The node
whose value compares `strcmp < 0` is taken (on a tie the second chain's
head), and when either chain is NULL the other is appended wholesale. -/
def mergeH (vals : Nat → List Nat) : Nat → (Nat → Nat) → Nat → Nat →
    (Nat → Nat) × Nat
  | 0, next, _, _ => (next, 0)
  | fuel + 1, next, l1, l2 =>
    if l1 = 0 then (next, l2)
    else if l2 = 0 then (next, l1)
    else if strcmp (vals l1) (vals l2) < 0 then
      let r := mergeH vals fuel next (next l1) l2
      (upd r.1 l1 r.2, l1)
    else
      let r := mergeH vals fuel next l1 (next l2)
      (upd r.1 l2 r.2, l2)

/-- `mergesort` of `queue.c` on the heap: NULL or single-node chains are
returned unchanged; otherwise the link after the slow cursor is severed
(`slow->next = NULL`), both halves are sorted and merged. Only `next`
pointers are read or written — `prev` pointers are untouched. -/
def mergesortH (vals : Nat → List Nat) : Nat → (Nat → Nat) → Nat →
    (Nat → Nat) × Nat
  | 0, next, h => (next, h)
  | fuel + 1, next, h =>
    if h = 0 then (next, h)
    else if next h = 0 then (next, h)
    else
      let slow := slowFastH next (fuel + 1) h (next h)
      let r := next slow
      let next1 := upd next slow 0
      let pl := mergesortH vals fuel next1 h
      let pr := mergesortH vals fuel pl.1 r
      mergeH vals (fuel + 1) pr.1 pl.2 pr.2

/-- The final forward pass of `q_sort`:
`for (l = head->next; l->next != NULL; l = l->next)` sets `l->prev` for
every node whose `next` is non-NULL, so the loop exits at the LAST chain
node with that node's `prev` never assigned. Returns the updated `prev`
map and the node where the loop stopped. -/
def rethreadH (next : Nat → Nat) : Nat → (Nat → Nat) → Nat → Nat →
    (Nat → Nat) × Nat
  | 0, pm, _, l => (pm, l)
  | fuel + 1, pm, pv, l =>
    if next l ≠ 0 then rethreadH next fuel (upd pm l pv) l (next l)
    else (pm, l)

/-- `q_sort` of `queue.c` on the heap. `hd` is the sentinel's address.
Guard: NULL, empty (`head->next == head`) or singular
(`head->next == head->prev`) queues are untouched. Otherwise the ring is
detached into a NULL-terminated chain (`head->prev->next = NULL`), the
chain is merge-sorted, and the forward pass rebuilds `prev` pointers and
reconnects both ends (`l->next = head; head->prev = l`). -/
def q_sortH (vals : Nat → List Nat) (fuel : Nat) (next prev : Nat → Nat)
    (hd : Nat) : (Nat → Nat) × (Nat → Nat) :=
  if hd = 0 then (next, prev)
  else if next hd = hd then (next, prev)
  else if next hd = prev hd then (next, prev)
  else
    let next1 := upd next (prev hd) 0
    let pm := mergesortH vals fuel next1 (next hd)
    let next2 := upd pm.1 hd pm.2
    let rt := rethreadH next2 fuel prev hd (next2 hd)
    (upd next2 rt.2 hd, upd rt.1 hd rt.2)

/-- Concrete two-element queue for exercising `q_sortH`: sentinel at
address 1, element "b" at address 2, element "a" at address 3 (the state
after inserting "b" then "a" at the tail of a new queue). -/
def next0 : Nat → Nat
  | 1 => 2
  | 2 => 3
  | 3 => 1
  | _ => 0

/-- Initial `prev` map of the concrete two-element queue. -/
def prev0 : Nat → Nat
  | 1 => 3
  | 2 => 1
  | 3 => 2
  | _ => 0

/-- Values of the concrete two-element queue: "b" at address 2, "a" at
address 3. -/
def vals0 : Nat → List Nat
  | 2 => [98]
  | 3 => [97]
  | _ => []

/-- The sequence produced by `q_sortList` permutes the input. -/
theorem q_sortList_perm (l : List element_t) : List.Perm (q_sortList l) l := by
  unfold q_sortList
  split
  · exact List.Perm.refl l
  · exact mergesort_perm l

/-- The sequence produced by `q_sortList` is ascending under `strcmp`. -/
theorem q_sortList_chain (l : List element_t) : List.Chain' valLe (q_sortList l) := by
  unfold q_sortList
  split
  · rename_i h
    match l with
    | [] => simp
    | [x] => simp
    | x :: y :: rest => simp at h
  · exact mergesort_chain l

/-- C1: `q_delete_dup` on the sorted queue `["a","a","b","c","c"]` does
NOT drop every copy of each duplicated value: the walk deletes the
current element only when it equals its successor, so the LAST copy of
each duplicated run survives and the result is `["a","b","c"]`, not the
claimed `["b"]` (the return value is `true`, as claimed). This
contradicts the function's own comment ("Delete all nodes that have
duplicate string") and the LeetCode 82 reference beside it. -/
theorem claim_C1_delete_dup_keeps_last_copy :
    q_delete_dup (some [⟨[97], 1⟩, ⟨[97], 2⟩, ⟨[98], 3⟩, ⟨[99], 4⟩, ⟨[99], 5⟩]) =
      (true, some [⟨[97], 2⟩, ⟨[98], 3⟩, ⟨[99], 5⟩]) ∧
    List.map element_t.value
      ((q_delete_dup (some [⟨[97], 1⟩, ⟨[97], 2⟩, ⟨[98], 3⟩, ⟨[99], 4⟩, ⟨[99], 5⟩])).2.getD [])
      ≠ [[98]] := by
  constructor
  · decide
  · decide

/-- C2: after `q_sort` on the queue `["b","a"]` (sentinel at address 1,
"b" at 2, "a" at 3), the forward ring is rebuilt correctly
(1 → 3 → 2 → 1) but the final forward pass never assigns the `prev`
pointer of the LAST sorted node: node 2 keeps its stale `prev = 1`
(the sentinel) although its ring predecessor is now node 3, so the ring
invariant `n.next.prev == n` fails at `n = 3`. -/
theorem claim_C2_sort_breaks_ring_invariant :
    (q_sortH vals0 10 next0 prev0 1).1 1 = 3 ∧
    (q_sortH vals0 10 next0 prev0 1).1 3 = 2 ∧
    (q_sortH vals0 10 next0 prev0 1).1 2 = 1 ∧
    (q_sortH vals0 10 next0 prev0 1).2 2 = 1 ∧
    (q_sortH vals0 10 next0 prev0 1).2 ((q_sortH vals0 10 next0 prev0 1).1 3) ≠ 3 := by
  refine ⟨by decide, by decide, by decide, by decide, by decide⟩

/-- C3 counterexample: merging two chains whose heads hold the equal
value "a" takes the SECOND chain's head first, and sorting the queue
whose elements are `"a"@1, "a"@2` (in that order) swaps them — equal
elements do not keep their relative order, refuting the claim that ties
take the first chain's head. -/
theorem claim_C3_counterexample :
    strcmp [97] [97] = 0 ∧
    mergeTwoLists [⟨[97], 1⟩] [⟨[97], 2⟩] = [⟨[97], 2⟩, ⟨[97], 1⟩] ∧
    mergeTwoLists [⟨[97], 1⟩] [⟨[97], 2⟩] ≠ [⟨[97], 1⟩, ⟨[97], 2⟩] ∧
    q_sortList [⟨[97], 1⟩, ⟨[97], 2⟩] = [⟨[97], 2⟩, ⟨[97], 1⟩] := by
  refine ⟨by decide, ?_, ?_, ?_⟩
  · simp [mergeTwoLists, strcmp]
  · simp [mergeTwoLists, strcmp]
  · simp [q_sortList, mergesort, mergesortSplit, mergeTwoLists, strcmp]

/-- C3 amended: during the merge of two sorted chains, when the two head
values compare EQUAL the element taken is the head of the SECOND chain
(`strcmp < 0 ? &l1 : &l2` falls to `&l2` on a tie), so equal-valued
elements do not in general keep their pre-sort relative order. -/
theorem claim_C3_tie_takes_second_chain (e1 e2 : element_t)
    (l1 l2 : List element_t) (h : strcmp e1.value e2.value = 0) :
    mergeTwoLists (e1 :: l1) (e2 :: l2) = e2 :: mergeTwoLists (e1 :: l1) l2 := by
  rw [mergeTwoLists_cons_cons, if_neg]
  omega

/-- Witness for the amended C3 theorem at the concrete tied heads
`"a"@5` and `"a"@6`. -/
theorem claim_C3_tie_takes_second_chain_witness :
    strcmp [97] [97] = 0 ∧
    mergeTwoLists [⟨[97], 5⟩] [⟨[97], 6⟩] =
      ⟨[97], 6⟩ :: mergeTwoLists [⟨[97], 5⟩] [] :=
  ⟨by decide, claim_C3_tie_takes_second_chain ⟨[97], 5⟩ ⟨[97], 6⟩ [] [] (by decide)⟩

/-- C4: `q_sort` leaves a NULL, empty or singular queue untouched, and
otherwise rearranges the forward element sequence into a permutation of
itself that is ascending under case-sensitive byte-wise `strcmp`; in
particular the queue built by inserting "b", "a", "c" at the tail sorts
to the value sequence "a", "b", "c". -/
theorem claim_C4_sort_ascending_permutation :
    q_sortO none = none ∧
    (∀ l : List element_t, List.Perm (q_sortList l) l ∧ List.Chain' valLe (q_sortList l)) ∧
    q_sortList ([] : List element_t) = [] ∧
    (∀ e : element_t, q_sortList [e] = [e]) ∧
    q_sortO (some [⟨[98], 1⟩, ⟨[97], 2⟩, ⟨[99], 3⟩]) =
      some [⟨[97], 2⟩, ⟨[98], 1⟩, ⟨[99], 3⟩] := by
  refine ⟨rfl, fun l => ⟨q_sortList_perm l, q_sortList_chain l⟩, by simp [q_sortList],
    fun e => by simp [q_sortList], ?_⟩
  simp [q_sortO, q_sortList, mergesort, mergesortSplit, mergeTwoLists, strcmp]

/-- C5: on removal with a non-NULL buffer and `bufsize == 0` the code
still runs the copy (`if (sp)` does not test `bufsize`): `strncpy`
writes nothing, but `sp[bufsize - 1] = 0` stores a NUL at offset
`(size_t)(0 - 1) = 2^64 - 1` — a byte OUTSIDE the zero-byte buffer —
for both `q_remove_head` and `q_remove_tail`, refuting "no byte outside
the out_cap-byte buffer is ever written, including when out_cap is 0". -/
theorem claim_C5_zero_bufsize_writes_out_of_bounds :
    q_remove_head (some [⟨[97], 7⟩]) true 0 =
      (some ⟨[97], 7⟩, some [], [(2 ^ 64 - 1, 0)]) ∧
    (q_remove_head (some [⟨[97], 7⟩]) true 0).2.2 ≠ [] ∧
    q_remove_tail (some [⟨[97], 8⟩]) true 0 =
      (some ⟨[97], 8⟩, some [], [(2 ^ 64 - 1, 0)]) := by
  refine ⟨by decide, by decide, by decide⟩

/-- C6: insertion at head or tail fails, leaving the queue exactly as it
was, when the handle is NULL (nothing allocated), when node allocation
fails (nothing allocated), or when string duplication fails (the node
already allocated is freed before returning); on success it returns
`true` and the queue gains exactly one element, holding a copy of the
argument string, at the front respectively the back. -/
theorem claim_C6_insert_rollback_or_one_element
    (l : List element_t) (s : List Nat) (mOk dOk : Bool) (nid : Nat) :
    q_insert_head none s mOk dOk nid = (false, none, false, false) ∧
    q_insert_head (some l) s false dOk nid = (false, some l, false, false) ∧
    q_insert_head (some l) s true false nid = (false, some l, true, true) ∧
    q_insert_head (some l) s true true nid = (true, some (⟨s, nid⟩ :: l), true, false) ∧
    q_insert_tail none s mOk dOk nid = (false, none, false, false) ∧
    q_insert_tail (some l) s false dOk nid = (false, some l, false, false) ∧
    q_insert_tail (some l) s true false nid = (false, some l, true, true) ∧
    q_insert_tail (some l) s true true nid = (true, some (l ++ [⟨s, nid⟩]), true, false) := by
  refine ⟨rfl, ?_, ?_, ?_, rfl, ?_, ?_, ?_⟩ <;> simp [q_insert_head, q_insert_tail]

/-- C7: `q_delete_mid` returns `false` and changes nothing on a NULL or
empty queue; on a non-empty queue of `n` elements it returns `true` and
removes exactly the element at 0-based index `⌊n / 2⌋` (for even `n` the
later middle candidate), keeping all other elements in order; on
`["a","b","c","d","e"]` it removes "c" (index 2) and on
`["a","b","c","d"]` it also removes "c" (index 2). -/
theorem claim_C7_delete_mid_floor_half :
    q_delete_mid none = (false, none) ∧
    q_delete_mid (some []) = (false, some []) ∧
    (∀ (e : element_t) (rest : List element_t),
      q_delete_mid (some (e :: rest)) =
        (true, some (List.take ((e :: rest).length / 2) (e :: rest) ++
          List.drop ((e :: rest).length / 2 + 1) (e :: rest)))) ∧
    q_delete_mid (some [⟨[97], 1⟩, ⟨[98], 2⟩, ⟨[99], 3⟩, ⟨[100], 4⟩, ⟨[101], 5⟩]) =
      (true, some [⟨[97], 1⟩, ⟨[98], 2⟩, ⟨[100], 4⟩, ⟨[101], 5⟩]) ∧
    q_delete_mid (some [⟨[97], 1⟩, ⟨[98], 2⟩, ⟨[99], 3⟩, ⟨[100], 4⟩]) =
      (true, some [⟨[97], 1⟩, ⟨[98], 2⟩, ⟨[100], 4⟩]) := by
  refine ⟨rfl, rfl, ?_, by decide, by decide⟩
  intro e rest
  simp [q_delete_mid, midIdx_eq, List.eraseIdx_eq_take_drop_succ]

/-- C8: removal from a NULL or empty queue returns NULL and leaves the
queue state untouched (and performs no buffer write); on a non-empty
queue the boundary element is returned intact — same node, same value,
not released — with ownership passing to the caller, and the queue
afterwards consists of exactly the remaining elements in order. -/
theorem claim_C8_remove_null_empty_and_ownership
    (spNN : Bool) (n : Nat) (e : element_t) (rest : List element_t) :
    q_remove_head none spNN n = (none, none, []) ∧
    q_remove_head (some []) spNN n = (none, some [], []) ∧
    q_remove_tail none spNN n = (none, none, []) ∧
    q_remove_tail (some []) spNN n = (none, some [], []) ∧
    (q_remove_head (some (e :: rest)) spNN n).1 = some e ∧
    (q_remove_head (some (e :: rest)) spNN n).2.1 = some rest ∧
    (q_remove_tail (some (e :: rest)) spNN n).1 =
      some ((e :: rest).getLast (List.cons_ne_nil e rest)) ∧
    (q_remove_tail (some (e :: rest)) spNN n).2.1 = some (e :: rest).dropLast := by
  refine ⟨rfl, rfl, rfl, rfl, rfl, rfl, rfl, rfl⟩

/-- C9: `q_reverse` is an involution — applying it twice restores the
original queue, node identities included; one application re-links the
existing nodes into exactly reversed order, and the result is a
permutation of the original nodes (no element is allocated or freed). -/
theorem claim_C9_reverse_involution (q : Option (List element_t))
    (l : List element_t) :
    q_reverse (q_reverse q) = q ∧
    q_reverse (some l) = some l.reverse ∧
    List.Perm (reverseWalk l []) l := by
  refine ⟨?_, ?_, ?_⟩
  · cases q with
    | none => rfl
    | some l => simp [q_reverse, reverseWalk_eq]
  · simp [q_reverse, reverseWalk_eq]
  · rw [reverseWalk_eq]
    simp

/-- C10: the recursion of `mergesort` is well-founded on chain length —
for every chain of length at least two (`x :: y :: rest`) the fast/slow
split yields two non-empty strictly shorter sub-chains that concatenate
back to the input — and the merge consumes exactly one node of one input
chain per step, its output carrying every node of both chains; `mergesort`
itself is a total function preserving chain length. -/
theorem claim_C10_mergesort_terminates
    (x y : element_t) (rest l1 l2 : List element_t) :
    0 < (mergesortSplit (x :: y :: rest) (y :: rest)).1.length ∧
    0 < (mergesortSplit (x :: y :: rest) (y :: rest)).2.length ∧
    (mergesortSplit (x :: y :: rest) (y :: rest)).1.length < (x :: y :: rest).length ∧
    (mergesortSplit (x :: y :: rest) (y :: rest)).2.length < (x :: y :: rest).length ∧
    (mergesortSplit (x :: y :: rest) (y :: rest)).1 ++
      (mergesortSplit (x :: y :: rest) (y :: rest)).2 = x :: y :: rest ∧
    (mergeTwoLists l1 l2).length = l1.length + l2.length ∧
    (mergesort (x :: y :: rest)).length = (x :: y :: rest).length := by
  have hap := mergesortSplit_append (x :: y :: rest) (y :: rest)
  have hpos := mergesortSplit_fst_pos (x :: y :: rest) (y :: rest) (by simp)
  have hle := mergesortSplit_fst_le (x :: y :: rest) (y :: rest)
  have hlen : (mergesortSplit (x :: y :: rest) (y :: rest)).1.length +
      (mergesortSplit (x :: y :: rest) (y :: rest)).2.length =
      (x :: y :: rest).length := by
    rw [← List.length_append, hap]
  refine ⟨hpos, ?_, ?_, ?_, hap, mergeTwoLists_length l1 l2,
    (mergesort_perm (x :: y :: rest)).length_eq⟩
  · simp only [List.length_cons] at hlen hle ⊢
    omega
  · simp only [List.length_cons] at hlen hle ⊢
    omega
  · simp only [List.length_cons] at hlen hle hpos ⊢
    omega

end LabQueue
